import Mathlib

/-!
Shallow embedding of the relay file server (Go sources: `internal/crypto/crypto.go`,
the `files` package, the relay server handlers and the client).

Bytes are modelled as `Nat`, byte strings as `List Nat`.  The NaCl secretbox
primitive (the external dependency `golang.org/x/crypto/nacl/secretbox`) is
modelled as an ideal authenticated cipher: the sealed box is an authenticator
block of `secretbox.Overhead` (16) elements followed by the plaintext, where the
first authenticator element binds key, nonce and message injectively; `open`
succeeds exactly on a box produced with the same key and nonce.  All length
arithmetic matches the Go code exactly.  Random nonces are passed as explicit
arguments.  Go `uint64` arithmetic is modelled with explicit reduction mod 2^64.
-/

namespace Relay

def KeySize : Nat := 32

def SaltSize : Nat := 16

def NonceSize : Nat := 24

/-- `secretbox.Overhead` (the Poly1305 tag size). -/
def SecretboxOverhead : Nat := 16

/-- `crypto.Overhead = NonceSize + secretbox.Overhead = 40`. -/
def Overhead : Nat := NonceSize + SecretboxOverhead

/-- An injective encoding of byte lists into `Nat`, used by the ideal
authenticator of the secretbox model. -/
def encodeList : List Nat → Nat
  | [] => 0
  | a :: as => Nat.pair a (encodeList as) + 1

/-- The authenticator block of the ideal secretbox: 16 elements, the first of
which binds key, nonce and message injectively. -/
def secretboxTag (key nonce msg : List Nat) : List Nat :=
  Nat.pair (encodeList key) (Nat.pair (encodeList nonce) (encodeList msg))
    :: List.replicate (SecretboxOverhead - 1) 0

/-- Model of `secretbox.Seal` (appended to an empty out-slice): authenticator
followed by the message, `SecretboxOverhead` bytes longer than the message. -/
def secretboxSeal (key nonce msg : List Nat) : List Nat :=
  secretboxTag key nonce msg ++ msg

/-- Model of `secretbox.Open`: checks the authenticator and recovers the
message; fails on any other key or nonce, or on a short box. -/
def secretboxOpen (key nonce box : List Nat) : Option (List Nat) :=
  if box.length < SecretboxOverhead then none
  else
    let msg := box.drop SecretboxOverhead
    if box.take SecretboxOverhead = secretboxTag key nonce msg then some msg
    else none

/-- The two chunk-level error values of `internal/crypto`. -/
inductive CryptoError
  | ciphertextTooShort
  | decryptFailed
deriving DecidableEq

instance {ε α : Type} [DecidableEq ε] [DecidableEq α] : DecidableEq (Except ε α) :=
  fun a b =>
    match a, b with
    | .error x, .error y =>
        if h : x = y then isTrue (by rw [h]) else isFalse (by intro hc; cases hc; exact h rfl)
    | .error _, .ok _ => isFalse (by intro hc; cases hc)
    | .ok _, .error _ => isFalse (by intro hc; cases hc)
    | .ok x, .ok y =>
        if h : x = y then isTrue (by rw [h]) else isFalse (by intro hc; cases hc; exact h rfl)

/-- `crypto.EncryptChunk`.  The source draws `nonce` freshly at random from
`crypto/rand`; here it is an explicit argument.  The ciphertext is
`nonce ‖ secretbox.Seal(chunk, nonce, key)`. -/
def EncryptChunk (key : List Nat) (nonce : List Nat) (chunk : List Nat) : List Nat :=
  nonce ++ secretboxSeal key nonce chunk

/-- `crypto.DecryptChunk` (the `out` argument of the source is the empty
append-target and is dropped): reject inputs shorter than `Overhead`, split off
the leading `NonceSize` bytes as the nonce, open the remainder. -/
def DecryptChunk (key : List Nat) (ciphertext : List Nat) : Except CryptoError (List Nat) :=
  if ciphertext.length < Overhead then .error .ciphertextTooShort
  else
    match secretboxOpen key (ciphertext.take NonceSize) (ciphertext.drop NonceSize) with
    | some msg => .ok msg
    | none => .error .decryptFailed

/-- Upstream read errors seen by the chunked reader: end of input, or any other
error (tagged by a code). -/
inductive ReadErr
  | eof
  | other (code : Nat)
deriving DecidableEq

/-- Errors surfaced by one refill step of the chunked reader. -/
inductive StreamErr
  | eof
  | readErr (code : Nat)
  | chunkErr (e : CryptoError)
deriving DecidableEq

/-- One refill step of `chunkReader.readNextChunk`.  `data` is the byte block
returned by the upstream `Read` call (the source's `data[:n]`), `err` its error
value.  The source checks `n == 0` first and reports end of input; a non-EOF
error on a read that returned data propagates; otherwise the block is
transformed by `chunkFn`. -/
def readNextChunk (chunkFn : List Nat → Except CryptoError (List Nat))
    (data : List Nat) (err : Option ReadErr) : Except StreamErr (List Nat) :=
  if data.length = 0 then .error .eof
  else
    match err with
    | some (.other c) => .error (.readErr c)
    | _ =>
        match chunkFn data with
        | .error e => .error (.chunkErr e)
        | .ok ch => .ok ch

/-- Draining a `chunkReader` whose upstream source is an in-memory byte
sequence (`bytes.Reader` semantics: each upstream read returns the next
`min chunkSize remaining` bytes).  The result is the concatenation of the
transformed chunks, or the first transformation error; a zero-byte upstream
read ends the stream.  `i` numbers the chunks so the per-chunk random nonce of
the encrypting variant can be supplied explicitly. -/
def drain (chunkFn : Nat → List Nat → Except CryptoError (List Nat)) (chunkSize : Nat)
    (i : Nat) (src : List Nat) : Except CryptoError (List Nat) :=
  if h : src.take chunkSize = [] then .ok []
  else
    match chunkFn i (src.take chunkSize) with
    | .error e => .error e
    | .ok ch =>
        match drain chunkFn chunkSize (i + 1) (src.drop chunkSize) with
        | .error e => .error e
        | .ok rest => .ok (ch ++ rest)
termination_by src.length
decreasing_by
  rw [List.take_eq_nil_iff] at h
  push_neg at h
  rcases h with ⟨h1, h2⟩
  have hlen : 0 < src.length := List.length_pos.mpr h2
  simp only [List.length_drop]
  omega

/-- `crypto.NewEncryptingReader`, read to exhaustion over `src`.  `nonceAt i` is
the random nonce drawn for chunk `i`. -/
def NewEncryptingReader (key : List Nat) (nonceAt : Nat → List Nat) (chunkSize : Nat)
    (src : List Nat) : Except CryptoError (List Nat) :=
  drain (fun i data => .ok (EncryptChunk key (nonceAt i) data)) chunkSize 0 src

/-- `crypto.NewDecryptingReader`, read to exhaustion over `src`. -/
def NewDecryptingReader (key : List Nat) (chunkSize : Nat) (src : List Nat) :
    Except CryptoError (List Nat) :=
  drain (fun _ data => DecryptChunk key data) chunkSize 0 src

/-! Server-side data model (`internal/files` and the relay handlers). -/

/-- The transport chunk size of the relay package: `32 * 1024`. -/
def ChunkSize : Nat := 32 * 1024

/-- `RawChunkSize = ChunkSize - crypto.Overhead`. -/
def RawChunkSize : Nat := ChunkSize - Overhead

/-- Go `uint64` arithmetic wraps at this modulus. -/
def U64 : Nat := 2 ^ 64

/-- `files.FileMetadata`.  The uuid string `ID` is modelled as `Option Nat`
(`none` is Go's empty string), the `time.Time` field `Uploaded` as a `Nat`
with `0` the zero time. -/
structure FileMetadata where
  ID : Option Nat := none
  Name : String := ""
  Size : Nat := 0
  Salt : List Nat := []
  Hash : List Nat := []
  Challenge : List Nat := []
  Uploaded : Nat := 0
  Downloads : Nat := 0
deriving DecidableEq

/-- `files.File`: metadata plus the accumulated ciphertext chunks. -/
structure File where
  meta : FileMetadata := {}
  Data : List (List Nat) := []
deriving DecidableEq

/-- `files.FileSet`: a map from uuid to `File` (the mutex is a sequential
no-op in this embedding; every handler holds it only for the map access). -/
abbrev FileSet := Nat → Option File

def FileSet.empty : FileSet := fun _ => none

/-- `FileSet.Set`. -/
def FileSet.set (fs : FileSet) (id : Nat) (f : File) : FileSet :=
  fun j => if j = id then some f else fs j

/-- `FileSet.Get`. -/
def FileSet.get (fs : FileSet) (id : Nat) : Option File := fs id

/-- `FileSet.Remove`: look up, delete if present, return the looked-up value
together with the resulting map. -/
def FileSet.remove (fs : FileSet) (id : Nat) : Option File × FileSet :=
  match fs id with
  | some f => (some f, fun j => if j = id then none else fs j)
  | none => (none, fs)

/-- `files.FileMetadata.CheckChallenge`: decrypt the stored challenge with the
supplied key; any decryption error yields `false`, success compares the
plaintext byte-for-byte with the stored hash. -/
def FileMetadata.CheckChallenge (m : FileMetadata) (key : List Nat) : Bool :=
  match DecryptChunk key m.Challenge with
  | .error _ => false
  | .ok b => if b = m.Hash then true else false

/-- A single body write of an `http.ResponseWriter`: either plain text (as
written by `http.Error`, trailing newline included) or the JSON-encoded
`files.FileID`. -/
inductive BodyWrite
  | text (s : String)
  | idJson (id : Nat)
deriving DecidableEq

/-- `http.ResponseWriter` state: the status is set by the first
`WriteHeader`/write and later `WriteHeader` calls are ignored; body writes
append. -/
structure RespWriter where
  status : Option Nat := none
  body : List BodyWrite := []
deriving DecidableEq

def RespWriter.writeHeader (w : RespWriter) (code : Nat) : RespWriter :=
  match w.status with
  | some _ => w
  | none => { w with status := some code }

def RespWriter.write (w : RespWriter) (b : BodyWrite) : RespWriter :=
  let w' := w.writeHeader 200
  { w' with body := w'.body ++ [b] }

/-- `http.Error`: set the status (first write wins) and append the message
plus a newline. -/
def httpError (w : RespWriter) (msg : String) (code : Nat) : RespWriter :=
  (w.writeHeader code).write (.text (msg ++ ("\n")))

/-- `RelayServer.CreateFile`, after a successful JSON decode of the request
body.  `newId` is the uuid generated by `uuid.New()`, `now` the creation
timestamp.  Note: in the source the `meta.Downloads != 0` branch calls
`http.Error` but is missing a `return`, so execution continues and the file is
created (and the id written) regardless. -/
def CreateFile (meta : FileMetadata) (newId : Nat) (now : Nat) (pending : FileSet) :
    RespWriter × FileSet :=
  let w : RespWriter := {}
  if meta.Name = ("") then (httpError w ("Name cannot be empty") 400, pending)
  else if meta.Size = 0 then (httpError w ("File must be >0 bytes") 400, pending)
  else if meta.Hash.length ≠ 32 then
    (httpError w ("Hash must be valid SHA-256 hash") 400, pending)
  else if meta.Salt.length ≠ SaltSize then
    (httpError w ("Salt must be 16 bytes") 400, pending)
  else if meta.Challenge.length ≠ 32 + Overhead then
    (httpError w ("Invalid challenge size") 400, pending)
  else if meta.Uploaded ≠ 0 then
    (httpError w ("Unexpected field \"uploaded\" found") 400, pending)
  else if meta.ID ≠ none then
    (httpError w ("Unexpected field \"id\" found") 400, pending)
  else
    let w1 := if meta.Downloads ≠ 0 then
        httpError w ("Unexpected field \"downloads\" found") 400
      else w
    let meta' := { meta with ID := some newId, Uploaded := now }
    let f : File := { meta := meta', Data := [] }
    let w2 := (w1.writeHeader 201).write (.idJson newId)
    (w2, pending.set newId f)

/-- One observed event of an upload request body: the cancellation signal
firing (checked at the top of every loop iteration), or one `Read` call
returning a block of bytes and an error value. -/
inductive UploadEvent
  | cancelled
  | read (data : List Nat) (err : Option ReadErr)
deriving DecidableEq

/-- How the upload body loop of `RelayServer.UploadFile` ends. -/
inductive UploadOutcome
  | outOfEvents
  | cancelled
  | invalidChunk
  | exceeded
  | readError (code : Nat)
  | done (fileBytes totalBytes : Nat) (dat : List (List Nat))
deriving DecidableEq

/-- The body loop of `RelayServer.UploadFile`: per iteration, check
cancellation, read a block; a non-empty block shorter than `Overhead` is
invalid; `fileBytes`/`totalBytes` accumulate with `uint64` wrapping; a running
total above the declared size aborts; the block is appended; then `io.EOF`
breaks the loop and any other read error aborts.  `.outOfEvents` marks the
model artifact of an exhausted event list (a real read would block). -/
def uploadLoop (size : Nat) (fileBytes totalBytes : Nat) (dat : List (List Nat)) :
    List UploadEvent → UploadOutcome
  | [] => .outOfEvents
  | .cancelled :: _ => .cancelled
  | .read data err :: rest =>
    if data.length = 0 then
      match err with
      | some .eof => .done fileBytes totalBytes dat
      | some (.other c) => .readError c
      | none => uploadLoop size fileBytes totalBytes dat rest
    else if data.length < Overhead then .invalidChunk
    else
      let fileBytes' := (fileBytes + (data.length - Overhead)) % U64
      let totalBytes' := (totalBytes + data.length) % U64
      if size < fileBytes' then .exceeded
      else
        match err with
        | some .eof => .done fileBytes' totalBytes' (dat ++ [data])
        | some (.other c) => .readError c
        | none => uploadLoop size fileBytes' totalBytes' (dat ++ [data]) rest

/-- The response of `RelayServer.UploadFile` (`.cancelled` writes nothing,
`.outOfEvents` is the still-blocked model artifact). -/
inductive UploadResp
  | badRequest (msg : String)
  | notFound
  | serverError (code : Nat)
  | cancelled
  | outOfEvents
  | ok
deriving DecidableEq

/-- `RelayServer.UploadFile` for a well-formed uuid path parameter: claim the
pending record by an atomic remove, run the body loop, and on a fully
validated transfer of exactly the declared size insert the record into the
ready set. -/
def UploadFile (id : Nat) (events : List UploadEvent) (pending ready : FileSet) :
    UploadResp × FileSet × FileSet :=
  match pending.remove id with
  | (none, p) => (.notFound, p, ready)
  | (some f, p) =>
    match uploadLoop f.meta.Size 0 0 f.Data events with
    | .outOfEvents => (.outOfEvents, p, ready)
    | .cancelled => (.cancelled, p, ready)
    | .invalidChunk => (.badRequest ("Invalid chunk"), p, ready)
    | .exceeded => (.badRequest ("Data exceeded expected file size"), p, ready)
    | .readError c => (.serverError c, p, ready)
    | .done fb _tb dat =>
      if fb < f.meta.Size then
        (.badRequest ("Data smaller than expected file size"), p, ready)
      else (.ok, p, ready.set id { f with Data := dat })

/-- Responses of the two read-only handlers. -/
inductive GetResp
  | notFound
  | contents (chunks : List (List Nat))
  | metaJson (m : FileMetadata)
deriving DecidableEq

/-- `RelayServer.GetFileContents` (success path: the chunk writes to the
response do not fail).  In the source `f` is a copy of the stored record (a Go
map read copies the value), so `f.Downloads += 1` under the ready-set lock
increments only the local copy and the store is returned unchanged. -/
def GetFileContents (id : Nat) (ready : FileSet) : GetResp × FileSet :=
  match ready.get id with
  | none => (.notFound, ready)
  | some f =>
    let _incrementedLocalCopy :=
      { f with meta := { f.meta with Downloads := f.meta.Downloads + 1 } }
    (.contents f.Data, ready)

/-- `RelayServer.GetFileMetadata`. -/
def GetFileMetadata (id : Nat) (ready : FileSet) : GetResp :=
  match ready.get id with
  | none => .notFound
  | some f => .metaJson f.meta

/-- An upload request body delivered as a sequence of non-empty reads followed
by end-of-file. -/
def encodeBody (chunks : List (List Nat)) : List UploadEvent :=
  chunks.map (fun c => UploadEvent.read c none) ++ [UploadEvent.read [] (some ReadErr.eof)]

/-- Total plaintext-equivalent byte count of a chunk sequence: chunk length
minus the cipher overhead, summed. -/
def plainTotal (chunks : List (List Nat)) : Nat :=
  (chunks.map (fun c => c.length - Overhead)).sum

/-- Concrete test input: metadata valid in every field except a nonzero
download counter. -/
def metaDownloads1 : FileMetadata where
  ID := none
  Name := "a.txt"
  Size := 5
  Salt := List.replicate 16 0
  Hash := List.replicate 32 0
  Challenge := List.replicate 72 0
  Uploaded := 0
  Downloads := 1

/-- The record the Create handler builds for `metaDownloads1` with id 7 at
time 1000. -/
def fileDownloads1 : File where
  meta := { metaDownloads1 with ID := some 7, Uploaded := 1000 }
  Data := []

/-- A concrete ready record with download counter 0. -/
def readyFile : File where
  meta := { ID := some 7, Name := "a", Size := 2, Downloads := 0 }
  Data := [[1, 2]]

/-! Helper lemmas about the crypto layer. -/

theorem encodeList_inj {xs ys : List Nat} (h : encodeList xs = encodeList ys) : xs = ys := by
  induction xs generalizing ys with
  | nil =>
    cases ys with
    | nil => rfl
    | cons y ys => simp [encodeList] at h
  | cons x xs ih =>
    cases ys with
    | nil => simp [encodeList] at h
    | cons y ys =>
      simp only [encodeList, add_left_inj] at h
      obtain ⟨h1, h2⟩ := Nat.pair_eq_pair.mp h
      rw [h1, ih h2]

theorem secretboxTag_length (key nonce msg : List Nat) :
    (secretboxTag key nonce msg).length = SecretboxOverhead := by
  simp [secretboxTag, SecretboxOverhead]

theorem secretboxSeal_length (key nonce msg : List Nat) :
    (secretboxSeal key nonce msg).length = SecretboxOverhead + msg.length := by
  simp [secretboxSeal, secretboxTag_length]

theorem secretboxOpen_seal (key nonce msg : List Nat) :
    secretboxOpen key nonce (secretboxSeal key nonce msg) = some msg := by
  have ht := secretboxTag_length key nonce msg
  have hlen := secretboxSeal_length key nonce msg
  have hdrop : (secretboxSeal key nonce msg).drop SecretboxOverhead = msg := by
    unfold secretboxSeal
    rw [← ht, List.drop_left]
  have htake : (secretboxSeal key nonce msg).take SecretboxOverhead = secretboxTag key nonce msg := by
    unfold secretboxSeal
    rw [← ht, List.take_left]
  unfold secretboxOpen
  rw [if_neg (by omega)]
  simp [hdrop, htake]

theorem secretboxTag_key_inj {key key' nonce msg : List Nat}
    (h : secretboxTag key nonce msg = secretboxTag key' nonce msg) : key = key' := by
  have h1 : Nat.pair (encodeList key) (Nat.pair (encodeList nonce) (encodeList msg)) =
      Nat.pair (encodeList key') (Nat.pair (encodeList nonce) (encodeList msg)) :=
    List.head_eq_of_cons_eq h
  exact encodeList_inj (Nat.pair_eq_pair.mp h1).1

theorem secretboxOpen_seal_ne {key key' : List Nat} (nonce msg : List Nat) (hk : key' ≠ key) :
    secretboxOpen key' nonce (secretboxSeal key nonce msg) = none := by
  have ht := secretboxTag_length key nonce msg
  have hlen := secretboxSeal_length key nonce msg
  have hdrop : (secretboxSeal key nonce msg).drop SecretboxOverhead = msg := by
    unfold secretboxSeal
    rw [← ht, List.drop_left]
  have htake : (secretboxSeal key nonce msg).take SecretboxOverhead = secretboxTag key nonce msg := by
    unfold secretboxSeal
    rw [← ht, List.take_left]
  unfold secretboxOpen
  rw [if_neg (by omega)]
  simp only [hdrop, htake]
  rw [if_neg]
  intro hEq
  exact hk (secretboxTag_key_inj hEq).symm

theorem EncryptChunk_length (key nonce chunk : List Nat) :
    (EncryptChunk key nonce chunk).length = nonce.length + (SecretboxOverhead + chunk.length) := by
  simp [EncryptChunk, secretboxSeal_length]

theorem DecryptChunk_EncryptChunk (key nonce chunk : List Nat) (hn : nonce.length = NonceSize) :
    DecryptChunk key (EncryptChunk key nonce chunk) = .ok chunk := by
  have hlen := EncryptChunk_length key nonce chunk
  have htake : (EncryptChunk key nonce chunk).take NonceSize = nonce := by
    unfold EncryptChunk
    rw [← hn, List.take_left]
  have hdrop : (EncryptChunk key nonce chunk).drop NonceSize = secretboxSeal key nonce chunk := by
    unfold EncryptChunk
    rw [← hn, List.drop_left]
  unfold DecryptChunk
  rw [if_neg (by simp only [Overhead, NonceSize, SecretboxOverhead] at *; omega)]
  rw [htake, hdrop, secretboxOpen_seal]

theorem DecryptChunk_EncryptChunk_ne {key key' : List Nat} (nonce chunk : List Nat)
    (hn : nonce.length = NonceSize) (hk : key' ≠ key) :
    DecryptChunk key' (EncryptChunk key nonce chunk) = .error .decryptFailed := by
  have hlen := EncryptChunk_length key nonce chunk
  have htake : (EncryptChunk key nonce chunk).take NonceSize = nonce := by
    unfold EncryptChunk
    rw [← hn, List.take_left]
  have hdrop : (EncryptChunk key nonce chunk).drop NonceSize = secretboxSeal key nonce chunk := by
    unfold EncryptChunk
    rw [← hn, List.drop_left]
  unfold DecryptChunk
  rw [if_neg (by simp only [Overhead, NonceSize, SecretboxOverhead] at *; omega)]
  rw [htake, hdrop, secretboxOpen_seal_ne nonce chunk hk]

/-! Helper lemmas about the streaming adapters. -/

theorem drain_nil (f : Nat → List Nat → Except CryptoError (List Nat)) (c i : Nat) :
    drain f c i [] = .ok [] := by
  rw [drain]
  simp

theorem drain_step (f : Nat → List Nat → Except CryptoError (List Nat)) (c i : Nat)
    (src : List Nat) (h : src.take c ≠ []) :
    drain f c i src =
      match f i (src.take c) with
      | .error e => .error e
      | .ok ch =>
          match drain f c (i + 1) (src.drop c) with
          | .error e => .error e
          | .ok rest => .ok (ch ++ rest) := by
  rw [drain]
  rw [dif_neg h]

theorem drain_roundtrip_aux (key : List Nat) (nonceAt : Nat → List Nat) (raw : Nat)
    (hraw : 0 < raw) (hn : ∀ k, (nonceAt k).length = NonceSize) :
    ∀ (n : Nat) (input : List Nat), input.length ≤ n → ∀ (i j : Nat) (ct : List Nat),
      drain (fun k data => .ok (EncryptChunk key (nonceAt k) data)) raw i input = .ok ct →
      drain (fun _ data => DecryptChunk key data) (raw + Overhead) j ct = .ok input := by
  intro n
  induction n with
  | zero =>
    intro input hle i j ct henc
    have hnil : input = [] := List.eq_nil_of_length_eq_zero (by omega)
    subst hnil
    rw [drain_nil] at henc
    cases henc
    exact drain_nil _ _ _
  | succ n ih =>
    intro input hle i j ct henc
    by_cases hnil : input = []
    · subst hnil
      rw [drain_nil] at henc
      cases henc
      exact drain_nil _ _ _
    · have htk : input.take raw ≠ [] := by
        rw [Ne, List.take_eq_nil_iff]
        push_neg
        exact ⟨by omega, hnil⟩
      rw [drain_step _ _ _ _ htk] at henc
      set e := EncryptChunk key (nonceAt i) (input.take raw) with he
      have helen : e.length = Overhead + (input.take raw).length := by
        rw [he, EncryptChunk_length, hn i]
        simp only [Overhead]
        omega
      cases hrec : drain (fun k data => .ok (EncryptChunk key (nonceAt k) data)) raw (i + 1)
          (input.drop raw) with
      | error err =>
        rw [hrec] at henc
        simp at henc
      | ok ct' =>
        rw [hrec] at henc
        simp only [] at henc
        have hct : ct = e ++ ct' := by
          cases henc
          rfl
        subst hct
        have hover : 0 < Overhead := by
          simp only [Overhead, NonceSize, SecretboxOverhead]
          omega
        by_cases hshort : input.length ≤ raw
        · -- the whole input fits in one chunk; the recursive encryption drained nothing
          have hdropnil : input.drop raw = [] := List.drop_of_length_le hshort
          rw [hdropnil, drain_nil] at hrec
          cases hrec
          have htakeall : input.take raw = input := List.take_of_length_le hshort
          have hele : e.length ≤ raw + Overhead := by
            rw [helen, htakeall]
            omega
          have htk2 : (e ++ ([] : List Nat)).take (raw + Overhead) ≠ [] := by
            simp only [List.append_nil]
            rw [Ne, List.take_eq_nil_iff]
            push_neg
            constructor
            · omega
            · intro hc
              rw [hc] at helen
              simp at helen
              omega
          rw [drain_step _ _ _ _ htk2]
          simp only [List.append_nil]
          rw [List.take_of_length_le hele, List.drop_of_length_le hele, drain_nil]
          rw [he, htakeall, DecryptChunk_EncryptChunk key (nonceAt i) input (hn i)]
          simp
        · -- a full chunk was taken; recurse on the remainder
          push_neg at hshort
          have htlen : (input.take raw).length = raw := by
            rw [List.length_take]
            omega
          have helen2 : e.length = raw + Overhead := by omega
          have htk2 : (e ++ ct').take (raw + Overhead) ≠ [] := by
            rw [← helen2, List.take_left]
            intro hc
            rw [hc] at helen2
            simp at helen2
            omega
          rw [drain_step _ _ _ _ htk2]
          rw [← helen2, List.take_left, List.drop_left]
          rw [he, DecryptChunk_EncryptChunk key (nonceAt i) (input.take raw) (hn i)]
          have hrest : drain (fun _ data => DecryptChunk key data) (raw + Overhead) (j + 1) ct' =
              .ok (input.drop raw) := by
            apply ih (input.drop raw) _ (i + 1) (j + 1) ct' hrec
            rw [List.length_drop]
            omega
          rw [helen2, hrest]
          simp only []
          rw [List.take_append_drop]

/-! Helper lemmas about the upload body loop. -/

theorem uploadLoop_eof (S fb tb : Nat) (dat : List (List Nat)) (rest : List UploadEvent) :
    uploadLoop S fb tb dat (UploadEvent.read [] (some ReadErr.eof) :: rest) = .done fb tb dat :=
  rfl

theorem Overhead_lt_ChunkSize : Overhead < ChunkSize := by
  simp only [Overhead, NonceSize, SecretboxOverhead, ChunkSize]
  omega

/-- Reading a run of well-sized chunks neither aborts nor ends the loop: the
accumulators advance by the plaintext-equivalent total (no `uint64` wrap can
occur while the declared size is below `U64 - ChunkSize`). -/
theorem uploadLoop_good_run {S : Nat} (hS : S + ChunkSize ≤ U64) :
    ∀ (pre : List (List Nat)) (tail : List UploadEvent) (fb tb : Nat) (dat : List (List Nat)),
      (∀ c ∈ pre, Overhead ≤ c.length ∧ c.length ≤ ChunkSize) →
      fb + plainTotal pre ≤ S →
      ∃ tb', uploadLoop S fb tb dat (pre.map (fun c => UploadEvent.read c none) ++ tail) =
        uploadLoop S (fb + plainTotal pre) tb' (dat ++ pre) tail := by
  intro pre
  induction pre with
  | nil =>
    intro tail fb tb dat _ _
    exact ⟨tb, by simp [plainTotal]⟩
  | cons c cs ih =>
    intro tail fb tb dat hwf hsum
    obtain ⟨hlo, hhi⟩ := hwf c (by simp)
    have hcne : c.length ≠ 0 := by
      have := Overhead_lt_ChunkSize
      simp only [Overhead, NonceSize, SecretboxOverhead] at hlo
      omega
    have hplain : plainTotal (c :: cs) = (c.length - Overhead) + plainTotal cs := by
      simp [plainTotal]
    have hfb1 : (fb + (c.length - Overhead)) % U64 = fb + (c.length - Overhead) := by
      apply Nat.mod_eq_of_lt
      have h1 : plainTotal cs + ((c.length - Overhead) + fb) ≤ S := by omega
      have h2 : c.length - Overhead < ChunkSize := by
        have := Overhead_lt_ChunkSize
        simp only [Overhead, NonceSize, SecretboxOverhead] at *
        omega
      omega
    simp only [List.map_cons, List.cons_append, uploadLoop, if_neg hcne, hfb1]
    rw [if_neg (by omega), if_neg (by omega)]
    obtain ⟨tb', htb'⟩ := ih tail (fb + (c.length - Overhead)) ((tb + c.length) % U64)
      (dat ++ [c]) (fun x hx => hwf x (by simp [hx])) (by omega)
    refine ⟨tb', ?_⟩
    simp only [List.append_eq]
    rw [htb']
    have : fb + (c.length - Overhead) + plainTotal cs = fb + plainTotal (c :: cs) := by omega
    rw [this]
    simp

/-- Inversion: if the loop over a chunk sequence followed by end-of-file ends
in `done`, every chunk was well-sized, the accumulator is the exact
plaintext-equivalent total, and it never went above the declared size. -/
theorem uploadLoop_done_inv {S : Nat} (hS : S + ChunkSize ≤ U64) :
    ∀ (chunks : List (List Nat)) (fb tb : Nat) (dat : List (List Nat))
      (fb' tb' : Nat) (dat' : List (List Nat)),
      (∀ c ∈ chunks, c ≠ [] ∧ c.length ≤ ChunkSize) → fb ≤ S →
      uploadLoop S fb tb dat (encodeBody chunks) = .done fb' tb' dat' →
      fb' = fb + plainTotal chunks ∧ fb' ≤ S ∧ (∀ c ∈ chunks, Overhead ≤ c.length) ∧
        dat' = dat ++ chunks := by
  intro chunks
  induction chunks with
  | nil =>
    intro fb tb dat fb' tb' dat' _ hfb hdone
    simp only [encodeBody, List.map_nil, List.nil_append, uploadLoop_eof] at hdone
    cases hdone
    simp [plainTotal, hfb]
  | cons c cs ih =>
    intro fb tb dat fb' tb' dat' hwf hfb hdone
    obtain ⟨hcne, hchi⟩ := hwf c (by simp)
    have hcz : c.length ≠ 0 := by
      intro hc
      exact hcne (List.eq_nil_of_length_eq_zero hc)
    simp only [encodeBody, List.map_cons, List.cons_append, uploadLoop, if_neg hcz] at hdone
    by_cases hshort : c.length < Overhead
    · rw [if_pos hshort] at hdone
      cases hdone
    · rw [if_neg hshort] at hdone
      push_neg at hshort
      have hfb1 : (fb + (c.length - Overhead)) % U64 = fb + (c.length - Overhead) := by
        apply Nat.mod_eq_of_lt
        have := Overhead_lt_ChunkSize
        simp only [Overhead, NonceSize, SecretboxOverhead, ChunkSize, U64] at *
        omega
      rw [hfb1] at hdone
      by_cases hexc : S < fb + (c.length - Overhead)
      · rw [if_pos hexc] at hdone
        cases hdone
      · rw [if_neg hexc] at hdone
        push_neg at hexc
        have hres := ih (fb + (c.length - Overhead)) ((tb + c.length) % U64) (dat ++ [c])
          fb' tb' dat' (fun x hx => hwf x (by simp [hx])) hexc
          (by simpa [encodeBody] using hdone)
        refine ⟨?_, hres.2.1, ?_, ?_⟩
        · rw [hres.1]
          simp only [plainTotal, List.map_cons, List.sum_cons]
          omega
        · intro x hx
          rcases List.mem_cons.mp hx with hx | hx
          · rw [hx]
            exact hshort
          · exact hres.2.2.1 x hx
        · rw [hres.2.2.2]
          simp

/-- A non-empty read shorter than the cipher overhead aborts immediately. -/
theorem uploadLoop_invalid_head (S fb tb : Nat) (dat : List (List Nat)) (c : List Nat)
    (rest : List UploadEvent) (hne : c ≠ []) (hshort : c.length < Overhead) :
    uploadLoop S fb tb dat (UploadEvent.read c none :: rest) = .invalidChunk := by
  have hcz : c.length ≠ 0 := fun hc => hne (List.eq_nil_of_length_eq_zero hc)
  simp only [uploadLoop, if_neg hcz, if_pos hshort]

/-- A well-sized read that pushes the accumulator past the declared size
aborts with the over-run error (no wrap below `U64 - ChunkSize`). -/
theorem uploadLoop_exceeded_head {S : Nat} (hS : S + ChunkSize ≤ U64) (fb tb : Nat)
    (dat : List (List Nat)) (c : List Nat) (rest : List UploadEvent)
    (hlo : Overhead ≤ c.length) (hhi : c.length ≤ ChunkSize) (hfb : fb ≤ S)
    (hexc : S < fb + (c.length - Overhead)) :
    uploadLoop S fb tb dat (UploadEvent.read c none :: rest) = .exceeded := by
  have hcz : c.length ≠ 0 := by
    simp only [Overhead, NonceSize, SecretboxOverhead] at hlo
    omega
  have hfb1 : (fb + (c.length - Overhead)) % U64 = fb + (c.length - Overhead) := by
    apply Nat.mod_eq_of_lt
    have := Overhead_lt_ChunkSize
    simp only [Overhead, NonceSize, SecretboxOverhead, ChunkSize, U64] at *
    omega
  rw [show (UploadEvent.read c none :: rest) = [UploadEvent.read c none] ++ rest by simp]
  simp only [uploadLoop, if_neg hcz, hfb1, List.singleton_append]
  rw [if_neg (by omega), if_pos hexc]

/-- With the declared size at the `uint64` maximum, the over-run abort is
unreachable: the wrapped accumulator can never exceed `U64 - 1`. -/
theorem uploadLoop_maxSize_replicate :
    ∀ (k fb tb : Nat) (dat : List (List Nat)), fb < U64 →
      ∃ tb' dat', uploadLoop (U64 - 1) fb tb dat
        (List.replicate k (UploadEvent.read (List.replicate ChunkSize 0) none) ++
          [UploadEvent.read [] (some ReadErr.eof)]) =
        .done ((fb + k * (ChunkSize - Overhead)) % U64) tb' dat' := by
  intro k
  induction k with
  | zero =>
    intro fb tb dat hfb
    refine ⟨tb, dat, ?_⟩
    simp only [List.replicate_zero, List.nil_append, uploadLoop_eof, Nat.zero_mul,
      Nat.add_zero]
    rw [Nat.mod_eq_of_lt hfb]
  | succ k ih =>
    intro fb tb dat hfb
    have hlen : (List.replicate ChunkSize (0 : Nat)).length = ChunkSize := by
      simp
    have hc1 : ¬(ChunkSize = 0) := by simp [ChunkSize]
    have hc2 : ¬(ChunkSize < Overhead) := by
      have := Overhead_lt_ChunkSize
      omega
    have hnoex : ¬(U64 - 1 < (fb + (ChunkSize - Overhead)) % U64) := by
      have := Nat.mod_lt (fb + (ChunkSize - Overhead)) (show 0 < U64 by simp [U64])
      omega
    simp only [List.replicate_succ, List.cons_append, uploadLoop, hlen]
    rw [if_neg hc1, if_neg hc2, if_neg hnoex]
    obtain ⟨tb', dat', hres⟩ := ih ((fb + (ChunkSize - Overhead)) % U64)
      ((tb + ChunkSize) % U64) (dat ++ [List.replicate ChunkSize 0])
      (Nat.mod_lt _ (by simp [U64]))
    refine ⟨tb', dat', ?_⟩
    simp only [List.append_eq]
    rw [hres, Nat.mod_add_mod]
    have : fb + (ChunkSize - Overhead) + k * (ChunkSize - Overhead) =
        fb + (k + 1) * (ChunkSize - Overhead) := by ring
    rw [this]

/-! Helper lemmas about the upload handler. -/

theorem FileSet.remove_get_self (p : FileSet) (id : Nat) :
    FileSet.get (p.remove id).2 id = none := by
  unfold FileSet.remove FileSet.get
  cases hp : p id with
  | none => simpa [hp] using hp
  | some f => simp [hp]

/-- The pending set produced by `UploadFile` is always the result of the
initial atomic remove, whatever the body events are. -/
theorem UploadFile_pending (id : Nat) (events : List UploadEvent) (p r : FileSet) :
    (UploadFile id events p r).2.1 = (p.remove id).2 := by
  unfold UploadFile
  rcases hpr : p.remove id with ⟨of, p'⟩
  cases of with
  | none => simp
  | some f =>
    cases hl : uploadLoop f.meta.Size 0 0 f.Data events <;> simp [hl]
    case done fb tb dat =>
      by_cases hfb : fb < f.meta.Size <;> simp [hfb]

/-- An identifier absent from the pending set is rejected as not-found and
nothing changes. -/
theorem UploadFile_notFound {id : Nat} {p : FileSet} (hp : FileSet.get p id = none)
    (events : List UploadEvent) (r : FileSet) :
    UploadFile id events p r = (.notFound, p, r) := by
  unfold FileSet.get at hp
  unfold UploadFile FileSet.remove
  rw [hp]

/-- Unless the transfer fully validates, the ready set is untouched. -/
theorem UploadFile_ready_unchanged (id : Nat) (events : List UploadEvent) (p r : FileSet)
    (hne : (UploadFile id events p r).1 ≠ .ok) : (UploadFile id events p r).2.2 = r := by
  unfold UploadFile at hne ⊢
  rcases hpr : p.remove id with ⟨of, p'⟩
  rw [hpr] at hne
  cases of with
  | none => simp
  | some f =>
    cases hl : uploadLoop f.meta.Size 0 0 f.Data events <;> simp [hl] at hne ⊢
    case done fb tb dat =>
      by_cases hfb : fb < f.meta.Size
      · simp [hfb]
      · rw [if_neg hfb] at hne
        exact absurd rfl hne

theorem FileSet.get_set_self (fs : FileSet) (id : Nat) (f : File) :
    FileSet.get (fs.set id f) id = some f := by
  simp [FileSet.get, FileSet.set]

/-- Evaluation of the upload handler when the identifier is pending. -/
theorem UploadFile_found {id : Nat} {p : FileSet} {f : File} (hp : FileSet.get p id = some f)
    (events : List UploadEvent) (r : FileSet) :
    UploadFile id events p r =
      match uploadLoop f.meta.Size 0 0 f.Data events with
      | .outOfEvents => (.outOfEvents, (p.remove id).2, r)
      | .cancelled => (.cancelled, (p.remove id).2, r)
      | .invalidChunk => (.badRequest ("Invalid chunk"), (p.remove id).2, r)
      | .exceeded => (.badRequest ("Data exceeded expected file size"), (p.remove id).2, r)
      | .readError c => (.serverError c, (p.remove id).2, r)
      | .done fb _tb dat =>
        if fb < f.meta.Size then
          (.badRequest ("Data smaller than expected file size"), (p.remove id).2, r)
        else (.ok, (p.remove id).2, r.set id { f with Data := dat }) := by
  unfold FileSet.get at hp
  unfold UploadFile FileSet.remove
  rw [hp]

theorem encodeBody_append (a b : List (List Nat)) :
    encodeBody (a ++ b) = a.map (fun c => UploadEvent.read c none) ++ encodeBody b := by
  simp [encodeBody]

theorem encodeBody_cons (c : List Nat) (cs : List (List Nat)) :
    encodeBody (c :: cs) = UploadEvent.read c none :: encodeBody cs := by
  simp [encodeBody]

/-! Claim theorems. -/

/-- Claim C3, amended: for a claimed pending record of declared size `S` with
`S + ChunkSize ≤ 2^64` — so that the server's `uint64` accumulator cannot
wrap; the original claim fails for declared sizes in the top few values of the
`uint64` range, see the counterexample — and a request body of non-empty read
chunks of at most the transport chunk size: a reachable chunk shorter than the
cipher overhead (40) is rejected as an invalid chunk; the first chunk pushing
the running plaintext-equivalent total above `S` aborts mid-stream with the
over-run error; reaching end of body with a total strictly below `S` is
rejected with the under-run error; and a transfer totalling exactly `S` — and
only such a transfer — moves the record to the ready set. -/
theorem C3_upload_accounting (S id : Nat) (f : File) (p r : FileSet)
    (chunks : List (List Nat))
    (hS : S + ChunkSize ≤ U64)
    (hsize : f.meta.Size = S)
    (hp : FileSet.get p id = some f)
    (hwf : ∀ c ∈ chunks, c ≠ [] ∧ c.length ≤ ChunkSize) :
    (∀ pre c rest, chunks = pre ++ c :: rest → (∀ x ∈ pre, Overhead ≤ x.length) →
      plainTotal pre ≤ S → c.length < Overhead →
      (UploadFile id (encodeBody chunks) p r).1 = .badRequest ("Invalid chunk") ∧
      (UploadFile id (encodeBody chunks) p r).2.2 = r) ∧
    (∀ pre c rest, chunks = pre ++ c :: rest → (∀ x ∈ pre, Overhead ≤ x.length) →
      plainTotal pre ≤ S → Overhead ≤ c.length →
      S < plainTotal pre + (c.length - Overhead) →
      (UploadFile id (encodeBody chunks) p r).1 =
        .badRequest ("Data exceeded expected file size") ∧
      (UploadFile id (encodeBody chunks) p r).2.2 = r) ∧
    ((∀ x ∈ chunks, Overhead ≤ x.length) → plainTotal chunks < S →
      (UploadFile id (encodeBody chunks) p r).1 =
        .badRequest ("Data smaller than expected file size") ∧
      (UploadFile id (encodeBody chunks) p r).2.2 = r) ∧
    ((∀ x ∈ chunks, Overhead ≤ x.length) → plainTotal chunks = S →
      (UploadFile id (encodeBody chunks) p r).1 = .ok ∧
      FileSet.get (UploadFile id (encodeBody chunks) p r).2.2 id =
        some { f with Data := f.Data ++ chunks }) ∧
    ((UploadFile id (encodeBody chunks) p r).1 = .ok → plainTotal chunks = S) := by
  subst hsize
  refine ⟨?_, ?_, ?_, ?_, ?_⟩
  · -- a reachable short chunk
    intro pre c rest hchunks hpre hpsum hcshort
    have hwfpre : ∀ x ∈ pre, Overhead ≤ x.length ∧ x.length ≤ ChunkSize := fun x hx =>
      ⟨hpre x hx, (hwf x (by rw [hchunks]; simp [hx])).2⟩
    obtain ⟨tb', hrun⟩ := uploadLoop_good_run hS pre (encodeBody (c :: rest)) 0 0 f.Data
      hwfpre (by omega)
    have hcne : c ≠ [] := (hwf c (by rw [hchunks]; simp)).1
    have hloop : uploadLoop f.meta.Size 0 0 f.Data (encodeBody chunks) = .invalidChunk := by
      rw [hchunks, encodeBody_append, hrun, encodeBody_cons]
      exact uploadLoop_invalid_head _ _ _ _ _ _ hcne hcshort
    rw [UploadFile_found hp, hloop]
    exact ⟨rfl, rfl⟩
  · -- the first over-running chunk
    intro pre c rest hchunks hpre hpsum hclo hexc
    have hwfpre : ∀ x ∈ pre, Overhead ≤ x.length ∧ x.length ≤ ChunkSize := fun x hx =>
      ⟨hpre x hx, (hwf x (by rw [hchunks]; simp [hx])).2⟩
    obtain ⟨tb', hrun⟩ := uploadLoop_good_run hS pre (encodeBody (c :: rest)) 0 0 f.Data
      hwfpre (by omega)
    have hchi : c.length ≤ ChunkSize := (hwf c (by rw [hchunks]; simp)).2
    have hloop : uploadLoop f.meta.Size 0 0 f.Data (encodeBody chunks) = .exceeded := by
      rw [hchunks, encodeBody_append, hrun, encodeBody_cons]
      exact uploadLoop_exceeded_head hS _ _ _ _ _ hclo hchi (by omega) (by omega)
    rw [UploadFile_found hp, hloop]
    exact ⟨rfl, rfl⟩
  · -- under-run rejected at end of body
    intro hall hlt
    have hwfall : ∀ x ∈ chunks, Overhead ≤ x.length ∧ x.length ≤ ChunkSize := fun x hx =>
      ⟨hall x hx, (hwf x hx).2⟩
    obtain ⟨tb', hrun⟩ := uploadLoop_good_run hS chunks
      [UploadEvent.read [] (some ReadErr.eof)] 0 0 f.Data hwfall (by omega)
    have hloop : uploadLoop f.meta.Size 0 0 f.Data (encodeBody chunks) =
        .done (0 + plainTotal chunks) tb' (f.Data ++ chunks) := by
      rw [encodeBody, hrun, uploadLoop_eof]
    simp only [UploadFile_found hp, hloop]
    rw [if_pos (show 0 + plainTotal chunks < f.meta.Size by omega)]
    exact ⟨rfl, rfl⟩
  · -- an exact transfer is promoted to the ready set
    intro hall heq
    have hwfall : ∀ x ∈ chunks, Overhead ≤ x.length ∧ x.length ≤ ChunkSize := fun x hx =>
      ⟨hall x hx, (hwf x hx).2⟩
    obtain ⟨tb', hrun⟩ := uploadLoop_good_run hS chunks
      [UploadEvent.read [] (some ReadErr.eof)] 0 0 f.Data hwfall (by omega)
    have hloop : uploadLoop f.meta.Size 0 0 f.Data (encodeBody chunks) =
        .done (0 + plainTotal chunks) tb' (f.Data ++ chunks) := by
      rw [encodeBody, hrun, uploadLoop_eof]
    simp only [UploadFile_found hp, hloop]
    rw [if_neg (show ¬(0 + plainTotal chunks < f.meta.Size) by omega)]
    exact ⟨rfl, FileSet.get_set_self _ _ _⟩
  · -- only an exact transfer is accepted
    intro hok
    rw [UploadFile_found hp] at hok
    cases hl : uploadLoop f.meta.Size 0 0 f.Data (encodeBody chunks) <;> simp [hl] at hok
    case done fb tb dat =>
      obtain ⟨h1, h2, -, -⟩ := uploadLoop_done_inv hS chunks 0 0 f.Data fb tb dat hwf
        (Nat.zero_le _) hl
      by_cases hfb : fb < f.meta.Size
      · rw [if_pos hfb] at hok
        cases hok
      · omega

/-- Witness for the amended claim C3: a single 48-byte chunk fills a declared
size of 8 exactly and the record is promoted to the ready set. -/
theorem C3_upload_accounting_witness :
    (UploadFile 0 (encodeBody [List.replicate 48 0])
        (FileSet.set FileSet.empty 0 { meta := { Size := 8 }, Data := [] })
        FileSet.empty).1 = .ok ∧
    FileSet.get (UploadFile 0 (encodeBody [List.replicate 48 0])
        (FileSet.set FileSet.empty 0 { meta := { Size := 8 }, Data := [] })
        FileSet.empty).2.2 0 =
      some { meta := { Size := 8 }, Data := [List.replicate 48 0] } := by
  have h := (C3_upload_accounting 8 0 { meta := { Size := 8 }, Data := [] }
      (FileSet.set FileSet.empty 0 { meta := { Size := 8 }, Data := [] }) FileSet.empty
      [List.replicate 48 0]
      (by decide) rfl rfl (by decide)).2.2.2.1 (by decide) (by decide)
  refine ⟨h.1, ?_⟩
  rw [h.2]
  simp

/-- If the loop ends with an accumulated total below the declared size, the
upload response is the under-run client error. -/
theorem UploadFile_done_small {id : Nat} {p : FileSet} {f : File} {r : FileSet}
    {events : List UploadEvent} {fb tb : Nat} {dat : List (List Nat)}
    (hp : FileSet.get p id = some f)
    (hl : uploadLoop f.meta.Size 0 0 f.Data events = .done fb tb dat)
    (hlt : fb < f.meta.Size) :
    (UploadFile id events p r).1 = .badRequest ("Data smaller than expected file size") := by
  rw [UploadFile_found hp]
  rw [hl]
  simp only []
  rw [if_pos hlt]

theorem plainTotal_replicate (k : Nat) (c : List Nat) :
    plainTotal (List.replicate k c) = k * (c.length - Overhead) := by
  induction k with
  | zero => simp [plainTotal]
  | succ k ih =>
    rw [List.replicate_succ]
    have hstep : plainTotal (c :: List.replicate k c) =
        (c.length - Overhead) + plainTotal (List.replicate k c) := by
      simp [plainTotal]
    rw [hstep, ih]
    ring

/-- Counterexample to claim C3 as stated: with the declared size at the
`uint64` maximum `2^64 - 1`, the server's wrapped accumulator can never exceed
the declared size, so the over-run is never detected mid-stream; a body whose
plaintext-equivalent total exceeds the declared size is instead consumed
entirely and rejected at end of body with the under-run error. -/
theorem C3_counterexample :
    plainTotal (List.replicate 563637988074724 (List.replicate ChunkSize 0)) > U64 - 1 ∧
    (UploadFile 0
        (encodeBody (List.replicate 563637988074724 (List.replicate ChunkSize 0)))
        (FileSet.set FileSet.empty 0 { meta := { Size := U64 - 1 }, Data := [] })
        FileSet.empty).1 =
      .badRequest ("Data smaller than expected file size") := by
  constructor
  · rw [plainTotal_replicate, List.length_replicate]
    norm_num [ChunkSize, Overhead, NonceSize, SecretboxOverhead, U64]
  · obtain ⟨tb', dat', hdone⟩ := uploadLoop_maxSize_replicate 563637988074724 0 0 []
      (by norm_num [U64])
    have hp : FileSet.get (FileSet.set FileSet.empty 0
        { meta := { Size := U64 - 1 }, Data := ([] : List (List Nat)) }) 0 =
        some { meta := { Size := U64 - 1 }, Data := [] } := rfl
    have henc : encodeBody (List.replicate 563637988074724 (List.replicate ChunkSize 0)) =
        List.replicate 563637988074724
            (UploadEvent.read (List.replicate ChunkSize 0) none) ++
          [UploadEvent.read [] (some ReadErr.eof)] := by
      rw [encodeBody, List.map_replicate]
    rw [henc]
    exact UploadFile_done_small hp hdone
      (by norm_num [ChunkSize, Overhead, NonceSize, SecretboxOverhead, U64])

/-- Claim C1 is contradicted by the code (code bug): a Create request whose
metadata carries a nonzero download counter receives the 400 client error
response, but — the `return` after this `http.Error` call is missing in the
source — the record is nevertheless inserted into the pending set and the
fresh identifier is appended to the response body. -/
theorem C1_create_downloads_bug :
    (CreateFile metaDownloads1 7 1000 FileSet.empty).1.status = some 400 ∧
    (CreateFile metaDownloads1 7 1000 FileSet.empty).1.body =
      [.text ("Unexpected field \"downloads\" found\n"), .idJson 7] ∧
    FileSet.get (CreateFile metaDownloads1 7 1000 FileSet.empty).2 7 =
      some fileDownloads1 := by
  refine ⟨by decide, by decide, by decide⟩

/-- Claim C2 is contradicted by the code (code bug): `GetFileContents` writes
the full stored body, but the download counter increment is performed on a
local copy of the record (a Go map read copies the value), so the ready set is
returned unchanged and a subsequent metadata read still reports the old
counter (0, not 1). -/
theorem C2_download_counter_bug :
    readyFile.meta.Downloads = 0 ∧
    (GetFileContents 7 (FileSet.set FileSet.empty 7 readyFile)).1 =
      .contents [[1, 2]] ∧
    (GetFileContents 7 (FileSet.set FileSet.empty 7 readyFile)).2 =
      FileSet.set FileSet.empty 7 readyFile ∧
    GetFileMetadata 7 (GetFileContents 7 (FileSet.set FileSet.empty 7 readyFile)).2 =
      .metaJson readyFile.meta := by
  refine ⟨by decide, by decide, rfl, by decide⟩

/-- Claim C4, amended: for the streaming chunk adapter (both variants — the
transformation is arbitrary here), a zero-byte upstream read is reported as
end of input — regardless of any accompanying error value, which is the
amendment forced by the counterexample — and an upstream error other than
end-of-input accompanying a read that returned at least one byte propagates
unchanged. -/
theorem C4_read_errors (chunkFn : List Nat → Except CryptoError (List Nat))
    (data : List Nat) (err : Option ReadErr) :
    (data.length = 0 → readNextChunk chunkFn data err = .error .eof) ∧
    (data ≠ [] → ∀ c, err = some (.other c) →
      readNextChunk chunkFn data err = .error (.readErr c)) := by
  constructor
  · intro h
    unfold readNextChunk
    rw [if_pos h]
  · intro hne c hc
    have hlen : data.length ≠ 0 := by
      intro h0
      exact hne (List.eq_nil_of_length_eq_zero h0)
    unfold readNextChunk
    rw [if_neg hlen, hc]

theorem C4_read_errors_witness :
    (([3] : List Nat) ≠ []) ∧
    readNextChunk (fun d => DecryptChunk (List.replicate 32 0) d) [3]
        (some (.other 9)) = .error (.readErr 9) :=
  ⟨by decide,
   (C4_read_errors (fun d => DecryptChunk (List.replicate 32 0) d) [3]
      (some (.other 9))).2 (by decide) 9 rfl⟩

/-- Counterexample to claim C4 as stated: a zero-byte upstream read carrying a
non-EOF error is silently converted into end-of-input — the source checks
`n == 0` and returns `io.EOF` before ever inspecting the error value — instead
of propagating the error unchanged. -/
theorem C4_counterexample :
    readNextChunk (fun d => DecryptChunk (List.replicate 32 0) d) []
        (some (.other 7)) = .error .eof ∧
    readNextChunk (fun d => DecryptChunk (List.replicate 32 0) d) []
        (some (.other 7)) ≠ .error (.readErr 7) :=
  ⟨rfl, by decide⟩

/-- Claim C5: for every 32-byte key and every byte sequence (the 24-byte nonce
drawn by the source's RNG is passed explicitly), decrypting an encrypted chunk
succeeds and returns exactly the original bytes. -/
theorem C5_chunk_roundtrip (key nonce chunk : List Nat)
    (hkey : key.length = KeySize) (hn : nonce.length = NonceSize) :
    DecryptChunk key (EncryptChunk key nonce chunk) = .ok chunk :=
  DecryptChunk_EncryptChunk key nonce chunk hn

theorem C5_chunk_roundtrip_witness :
    (List.replicate 32 7 : List Nat).length = KeySize ∧
    (List.replicate 24 1 : List Nat).length = NonceSize ∧
    DecryptChunk (List.replicate 32 7)
        (EncryptChunk (List.replicate 32 7) (List.replicate 24 1) [1, 2, 3]) =
      .ok [1, 2, 3] :=
  ⟨by decide, by decide,
   C5_chunk_roundtrip (List.replicate 32 7) (List.replicate 24 1) [1, 2, 3]
     (by decide) (by decide)⟩

/-- Claim C6: encrypting any input through the streaming adapter with the raw
chunk size `RawChunkSize = ChunkSize - Overhead` and decrypting the
concatenated ciphertext through the matching adapter with the transport chunk
size `ChunkSize` reproduces the input exactly — in particular for lengths
`0, 1, RawChunkSize - 1, RawChunkSize, RawChunkSize + 1` and several chunks. -/
theorem C6_streaming_roundtrip (key : List Nat) (nonceAt : Nat → List Nat)
    (input ct : List Nat) (hkey : key.length = KeySize)
    (hn : ∀ k, (nonceAt k).length = NonceSize)
    (henc : NewEncryptingReader key nonceAt RawChunkSize input = .ok ct) :
    NewDecryptingReader key ChunkSize ct = .ok input := by
  have hrc : RawChunkSize + Overhead = ChunkSize := by
    simp [RawChunkSize, ChunkSize, Overhead, NonceSize, SecretboxOverhead]
  unfold NewEncryptingReader at henc
  unfold NewDecryptingReader
  rw [← hrc]
  exact drain_roundtrip_aux key nonceAt RawChunkSize
    (by simp [RawChunkSize, ChunkSize, Overhead, NonceSize, SecretboxOverhead])
    hn input.length input le_rfl 0 0 ct henc

theorem C6_streaming_roundtrip_witness :
    (List.replicate 32 0 : List Nat).length = KeySize ∧
    NewEncryptingReader (List.replicate 32 0) (fun _ => List.replicate 24 0)
        RawChunkSize [] = .ok [] ∧
    NewDecryptingReader (List.replicate 32 0) ChunkSize [] = .ok [] :=
  ⟨by decide,
   by unfold NewEncryptingReader; exact drain_nil _ _ _,
   C6_streaming_roundtrip (List.replicate 32 0) (fun _ => List.replicate 24 0) [] []
     (by decide) (fun _ => by simp [NonceSize])
     (by unfold NewEncryptingReader; exact drain_nil _ _ _)⟩

/-- Claim C7: decryption of any input shorter than the 40-byte overhead,
including the empty input, fails with the ciphertext-too-short error kind. -/
theorem C7_too_short (key ciphertext : List Nat) (hkey : key.length = KeySize)
    (hlen : ciphertext.length < Overhead) :
    DecryptChunk key ciphertext = .error .ciphertextTooShort := by
  unfold DecryptChunk
  rw [if_pos hlen]

theorem C7_too_short_witness :
    (List.replicate 32 0 : List Nat).length = KeySize ∧
    (([] : List Nat)).length < Overhead ∧
    DecryptChunk (List.replicate 32 0) [] = .error .ciphertextTooShort :=
  ⟨by decide, by decide,
   C7_too_short (List.replicate 32 0) [] (by decide) (by decide)⟩

/-- Claim C8: the upload handler removes the pending entry atomically before
reading any body bytes — the resulting pending set is exactly the post-remove
map, independent of the body events — so after any upload request for an
identifier, the identifier is absent from pending and every subsequent upload
request for it receives not-found, leaving both sets unchanged. -/
theorem C8_claim_once (id : Nat) (events : List UploadEvent) (p r : FileSet) :
    (UploadFile id events p r).2.1 = (p.remove id).2 ∧
    FileSet.get (UploadFile id events p r).2.1 id = none ∧
    ∀ events2, UploadFile id events2 (UploadFile id events p r).2.1
        (UploadFile id events p r).2.2 =
      (.notFound, (UploadFile id events p r).2.1, (UploadFile id events p r).2.2) := by
  refine ⟨UploadFile_pending id events p r, ?_, ?_⟩
  · rw [UploadFile_pending]
    exact FileSet.remove_get_self p id
  · intro events2
    apply UploadFile_notFound
    rw [UploadFile_pending]
    exact FileSet.remove_get_self p id

/-- Claim C9: challenge verification returns a plain boolean and never
surfaces the underlying decryption error; it is true exactly when decrypting
the stored challenge with the supplied key yields the stored hash — in
particular true for the key that created the challenge and false for every
other key. -/
theorem C9_check_challenge :
    (∀ (m : FileMetadata) (key : List Nat),
      m.CheckChallenge key = true ↔ DecryptChunk key m.Challenge = .ok m.Hash) ∧
    (∀ (m : FileMetadata) (key : List Nat) (e : CryptoError),
      DecryptChunk key m.Challenge = .error e → m.CheckChallenge key = false) ∧
    (∀ (key nonce hash : List Nat) (m : FileMetadata),
      key.length = KeySize → nonce.length = NonceSize →
      m.Challenge = EncryptChunk key nonce hash → m.Hash = hash →
      m.CheckChallenge key = true ∧
      ∀ key', key' ≠ key → m.CheckChallenge key' = false) := by
  have hiff : ∀ (m : FileMetadata) (key : List Nat),
      m.CheckChallenge key = true ↔ DecryptChunk key m.Challenge = .ok m.Hash := by
    intro m key
    unfold FileMetadata.CheckChallenge
    cases h : DecryptChunk key m.Challenge with
    | error e => simp
    | ok b =>
      by_cases hb : b = m.Hash
      · simp [hb]
      · dsimp only
        rw [if_neg hb]
        constructor
        · intro hf
          simp at hf
        · intro hok
          injection hok with hbh
          exact (hb hbh).elim
  refine ⟨hiff, ?_, ?_⟩
  · intro m key e he
    unfold FileMetadata.CheckChallenge
    rw [he]
  · intro key nonce hash m hkey hn hch hh
    constructor
    · rw [hiff]
      rw [hch, hh]
      exact DecryptChunk_EncryptChunk key nonce hash hn
    · intro key' hne
      unfold FileMetadata.CheckChallenge
      rw [hch, DecryptChunk_EncryptChunk_ne nonce hash hn hne]

theorem C9_check_challenge_witness :
    FileMetadata.CheckChallenge
      { Hash := List.replicate 32 3,
        Challenge := EncryptChunk (List.replicate 32 0) (List.replicate 24 2)
          (List.replicate 32 3) }
      (List.replicate 32 0) = true ∧
    FileMetadata.CheckChallenge
      { Hash := List.replicate 32 3,
        Challenge := EncryptChunk (List.replicate 32 0) (List.replicate 24 2)
          (List.replicate 32 3) }
      (List.replicate 32 1) = false := by
  have h := C9_check_challenge.2.2 (List.replicate 32 0) (List.replicate 24 2)
    (List.replicate 32 3)
    { Hash := List.replicate 32 3,
      Challenge := EncryptChunk (List.replicate 32 0) (List.replicate 24 2)
        (List.replicate 32 3) }
    (by decide) (by decide) rfl rfl
  exact ⟨h.1, h.2 (List.replicate 32 1) (by decide)⟩

/-- Claim C10: whenever an upload that claimed a pending record does not
succeed — malformed chunk, size over- or under-run, mid-body read error,
cancellation, or a still-unfinished body — and the identifier was not already
in the ready set (the store invariant), the record ends up in neither set, and
every later upload, metadata or download request for it answers not-found. -/
theorem C10_failed_upload_absent (id : Nat) (events : List UploadEvent) (p r : FileSet)
    (hr : FileSet.get r id = none)
    (hfail : (UploadFile id events p r).1 ≠ .ok) :
    FileSet.get (UploadFile id events p r).2.1 id = none ∧
    FileSet.get (UploadFile id events p r).2.2 id = none ∧
    (∀ events2, (UploadFile id events2 (UploadFile id events p r).2.1
        (UploadFile id events p r).2.2).1 = .notFound) ∧
    GetFileMetadata id (UploadFile id events p r).2.2 = .notFound ∧
    (GetFileContents id (UploadFile id events p r).2.2).1 = .notFound := by
  have hready := UploadFile_ready_unchanged id events p r hfail
  have hpend : FileSet.get (UploadFile id events p r).2.1 id = none := by
    rw [UploadFile_pending]
    exact FileSet.remove_get_self p id
  rw [hready]
  refine ⟨hpend, hr, ?_, ?_, ?_⟩
  · intro events2
    rw [UploadFile_notFound hpend events2 r]
  · unfold GetFileMetadata
    rw [hr]
  · unfold GetFileContents
    rw [hr]

theorem C10_failed_upload_absent_witness :
    FileSet.get (UploadFile 0 [UploadEvent.cancelled]
        (FileSet.set FileSet.empty 0 { meta := { Size := 8 }, Data := [] })
        FileSet.empty).2.1 0 = none ∧
    FileSet.get (UploadFile 0 [UploadEvent.cancelled]
        (FileSet.set FileSet.empty 0 { meta := { Size := 8 }, Data := [] })
        FileSet.empty).2.2 0 = none ∧
    GetFileMetadata 0 (UploadFile 0 [UploadEvent.cancelled]
        (FileSet.set FileSet.empty 0 { meta := { Size := 8 }, Data := [] })
        FileSet.empty).2.2 = .notFound := by
  have h := C10_failed_upload_absent 0 [UploadEvent.cancelled]
    (FileSet.set FileSet.empty 0 { meta := { Size := 8 }, Data := [] })
    FileSet.empty rfl (by decide)
  exact ⟨h.1, h.2.1, h.2.2.2.1⟩

end Relay
